import Mathlib

/-!
Verification development for the zk-anonymous-poll ink! contract
(src/contracts/lib.rs). The contract logic is shallowly embedded:

* Rust byte slices and strings become `List Nat` (a Rust `String` is its
  UTF-8 byte sequence; string equality in Rust is byte equality).
* `ink::storage::Mapping` becomes a function `K → Option V`.
* Machine integers (`u32`, `u128`) become `Nat` with explicit `% 2 ^ 32`
  or checked-add guards exactly where the source casts or checks.
* Fallible code returns `Except`. Indexing and slicing inside the proof
  decoder are modelled with a distinct `DesErr.oob` outcome standing for a
  Rust panic (out-of-bounds access), so that panic-freedom is a provable
  statement rather than an artifact of the embedding.
* ink! messages returning `Err` revert all storage writes of the call
  (transactional host semantics, spec section 5); accordingly each
  state-mutating operation returns `Except Error ZKPoll` and an error
  result carries no state: the caller keeps the pre-call state.
-/

namespace ZkPoll

/-- Byte sequences (Rust `Vec<u8>`, `[u8; 32]`, and the UTF-8 bytes of a
Rust `String`). Values are intended to lie below 256. -/
abbrev Bytes := List Nat

/-- Model of `ink::storage::Mapping`. -/
def Mapping (K V : Type) : Type := K → Option V

/-- An empty mapping (`Mapping::new`). -/
def Mapping.empty {K V : Type} : Mapping K V := fun _ => none

/-- `Mapping::insert`. -/
def Mapping.insert {K V : Type} [DecidableEq K] (m : Mapping K V) (k : K) (v : V) :
    Mapping K V :=
  fun q => if q = k then some v else m q

/-- `Mapping::get`. -/
def Mapping.get {K V : Type} (m : Mapping K V) (k : K) : Option V := m k

/-- The contract's error enum (src/contracts/lib.rs, `enum Error`). -/
inductive Error where
  | PollNotFound
  | PollAlreadyExists
  | PollEnded
  | InvalidProof
  | NullifierAlreadyUsed
  | NotPollCreator
  | InvalidVoteChoice
  | ArithmeticOverflow
  | ProofDeserializationError
  | InvalidPublicInputs
  | InvalidNullifierFormat
deriving DecidableEq, Repr

/-- `struct Poll` from the source. `title`, `description` and the option
labels are strings, modelled as their UTF-8 byte sequences. -/
structure Poll where
  id : Nat
  title : Bytes
  description : Bytes
  options : List Bytes
  merkle_root : Bytes
  creator : Nat
  is_active : Bool
  total_votes : Nat
  end_block : Nat
deriving DecidableEq, Repr

/-- `struct ProofData` from the source. -/
structure ProofData where
  proof : Bytes
  nullifier : Bytes
  vote_choice : Nat
deriving DecidableEq, Repr

/-- `struct NoirProof` from the source: decoded proof bytes plus the ordered
public-input strings (as UTF-8 byte sequences). -/
structure NoirProof where
  proof_bytes : Bytes
  public_inputs : List Bytes
deriving DecidableEq, Repr

/-- `struct ZKPoll`: the contract storage. -/
structure ZKPoll where
  next_poll_id : Nat
  polls : Mapping Nat Poll
  used_nullifiers : Mapping (Nat × Bytes) Bool
  poll_results : Mapping (Nat × Nat) Nat
  verification_key : Option Bytes

/-- Host environment of one call: `self.env().caller()` and
`self.env().block_number()`. -/
structure Env where
  caller : Nat
  block_number : Nat
deriving DecidableEq, Repr

/-- `u32::checked_add`: `some` of the sum when it fits in 32 bits. -/
def checked_add_u32 (a b : Nat) : Option Nat :=
  if a + b < 2 ^ 32 then some (a + b) else none

/-- Errors of the proof decoder. `malformed` is the source's `Err(())`
(surfaced to callers as `ProofDeserializationError`); `oob` stands for a
Rust panic on an out-of-bounds index or slice, which the decoder must never
reach. -/
inductive DesErr where
  | oob
  | malformed
deriving DecidableEq, Repr

/-- `u32::from_le_bytes` on four checked single-byte reads
`buf[off] .. buf[off+3]`; an out-of-range index is a panic (`oob`). -/
def u32leAt (buf : Bytes) (off : Nat) : Except DesErr Nat :=
  match buf.get? off, buf.get? (off + 1), buf.get? (off + 2), buf.get? (off + 3) with
  | some b0, some b1, some b2, some b3 =>
      .ok (b0 + 256 * b1 + 65536 * b2 + 16777216 * b3)
  | _, _, _, _ => .error .oob

/-- Rust slice `&buf[a..b]`: panics (`oob`) unless `a ≤ b ≤ buf.len()`. -/
def sliceE (buf : Bytes) (a b : Nat) : Except DesErr Bytes :=
  if a ≤ b ∧ b ≤ buf.length then .ok ((buf.drop a).take (b - a)) else .error .oob

/-- Continuation byte of a UTF-8 sequence: `0x80..=0xBF`. -/
def isCont (b : Nat) : Bool := 128 ≤ b && b ≤ 191

/-- Validity of a byte sequence as UTF-8, exactly the table enforced by
Rust's `core::str::from_utf8` (rejecting overlong forms, surrogates and
code points above U+10FFFF). -/
def validUtf8 : List Nat → Bool
  | [] => true
  | b :: rest =>
    if b < 128 then validUtf8 rest
    else if b < 194 then false
    else if b < 224 then
      match rest with
      | c1 :: r => isCont c1 && validUtf8 r
      | [] => false
    else if b < 240 then
      match rest with
      | c1 :: c2 :: r =>
          (if b = 224 then 160 ≤ c1 && c1 ≤ 191
           else if b = 237 then 128 ≤ c1 && c1 ≤ 159
           else isCont c1) && isCont c2 && validUtf8 r
      | _ => false
    else if b < 245 then
      match rest with
      | c1 :: c2 :: c3 :: r =>
          (if b = 240 then 144 ≤ c1 && c1 ≤ 191
           else if b = 244 then 128 ≤ c1 && c1 ≤ 143
           else isCont c1) && isCont c2 && isCont c3 && validUtf8 r
      | _ => false
    else false

/-- The input-reading loop of `deserialize_proof`: reads `n` length-prefixed
UTF-8 inputs starting at `off`, returning them with the final offset. -/
def readInputs (buf : Bytes) : Nat → Nat → Except DesErr (List Bytes × Nat)
  | 0, off => .ok ([], off)
  | n + 1, off =>
    if off + 4 > buf.length then .error .malformed
    else
      match u32leAt buf off with
      | .error e => .error e
      | .ok input_len =>
        if off + 4 + input_len > buf.length then .error .malformed
        else
          match sliceE buf (off + 4) (off + 4 + input_len) with
          | .error e => .error e
          | .ok input_bytes =>
            if validUtf8 input_bytes then
              match readInputs buf n (off + 4 + input_len) with
              | .error e => .error e
              | .ok (rest, off2) => .ok (input_bytes :: rest, off2)
            else .error .malformed

/-- `deserialize_proof` (src/contracts/lib.rs lines 316-373), translated
check-for-check; bound checks that the source performs before indexing are
kept in source order, so an `oob` outcome is reachable only if a check were
missing. -/
def deserialize_proof (buf : Bytes) : Except DesErr NoirProof :=
  if buf.length < 8 then .error .malformed
  else
    match u32leAt buf 0 with
    | .error e => .error e
    | .ok proof_len =>
      if buf.length < 4 + proof_len + 4 then .error .malformed
      else
        match sliceE buf 4 (4 + proof_len) with
        | .error e => .error e
        | .ok proof_data =>
          match u32leAt buf (4 + proof_len) with
          | .error e => .error e
          | .ok num_inputs =>
            match readInputs buf num_inputs (8 + proof_len) with
            | .error e => .error e
            | .ok (public_inputs, _) => .ok ⟨proof_data, public_inputs⟩

/-- Little-endian digit expansion helper with explicit fuel (structural
recursion so that concrete values reduce in the kernel). -/
def decAux : Nat → Nat → List Nat
  | 0, _ => []
  | fuel + 1, n => if n < 10 then [n] else n % 10 :: decAux fuel (n / 10)

/-- Rust's `u128::to_string` / `u32::to_string`: base-10 rendering of a
natural number as its ASCII byte sequence (most significant digit first). -/
def natToDecimal (n : Nat) : Bytes :=
  ((decAux (n + 1) n).reverse).map (fun d => d + 48)

/-- The little-endian accumulation loop of `bytes_to_field_string`:
`result |= (bytes[i] as u128) << (8 * i)`. On `u8`-ranged bytes the shifted
bit-or is plain addition because the shifted summands occupy disjoint bit
windows. -/
def leBytesToNat : Bytes → Nat
  | [] => 0
  | b :: rest => b + 256 * leBytesToNat rest

/-- `bytes_to_field_string` (lines 399-410): decimal string of the
little-endian integer over the first `min 16 len` bytes. -/
def bytes_to_field_string (bytes : Bytes) : Bytes :=
  natToDecimal (leBytesToNat (bytes.take 16))

/-- `construct_public_inputs` (lines 376-396). The fourth entry performs
the source's `poll.options.len() as u32` truncating cast. -/
def construct_public_inputs (poll : Poll) (proof_data : ProofData) : List Bytes :=
  [bytes_to_field_string poll.merkle_root,
   bytes_to_field_string proof_data.nullifier,
   natToDecimal poll.id,
   natToDecimal (poll.options.length % 2 ^ 32)]

/-- Strip the optional leading ASCII plus sign accepted by Rust's integer
`FromStr` for unsigned types. -/
def stripPlus (s : Bytes) : Bytes :=
  match s with
  | 43 :: rest => rest
  | _ => s

/-- Digit-accumulation loop of `from_str_radix` with per-step overflow
check against `max`. -/
def parseDigitsAcc (max : Nat) : Bytes → Nat → Option Nat
  | [], acc => some acc
  | b :: rest, acc =>
    if 48 ≤ b ∧ b ≤ 57 then
      let acc2 := acc * 10 + (b - 48)
      if acc2 ≤ max then parseDigitsAcc max rest acc2 else none
    else none

/-- Rust `str::parse` for an unsigned integer type with maximum value
`max`: optional leading plus, then one or more decimal digits, value at
most `max`. -/
def parseUnsigned (max : Nat) (s : Bytes) : Option Nat :=
  match stripPlus s with
  | [] => none
  | ds => parseDigitsAcc max ds 0

/-- `u64::MAX`. -/
def U64MAX : Nat := 2 ^ 64 - 1

/-- `u128::MAX`. -/
def U128MAX : Nat := 2 ^ 128 - 1

/-- `validate_public_inputs` (lines 413-425): equal length and element-wise
equality under `zip`. -/
def validate_public_inputs (proof_inputs expected_inputs : List Bytes) : Bool :=
  if proof_inputs.length ≠ expected_inputs.length then false
  else (proof_inputs.zip expected_inputs).all fun pe => pe.1 == pe.2

/-- `basic_proof_validation` (lines 444-468). -/
def basic_proof_validation (proof : NoirProof) : Bool :=
  if proof.proof_bytes.isEmpty || proof.proof_bytes.length > 10000 then false
  else if proof.public_inputs.length ≠ 4 then false
  else proof.public_inputs.all fun input =>
    !input.isEmpty &&
      ((parseUnsigned U64MAX input).isSome || (parseUnsigned U128MAX input).isSome)

/-- `verify_noir_proof` (lines 428-441): structural validation, then the
verification key must be present (its absence makes verification fail). -/
def verify_noir_proof (st : ZKPoll) (proof : NoirProof) : Bool :=
  if !basic_proof_validation proof then false
  else if st.verification_key.isNone then false
  else true

/-- `verify_zk_proof` (lines 298-313). A decode failure is surfaced as
`ProofDeserializationError` (the `oob` outcome never occurs, see
`deserialize_proof_safety`). -/
def verify_zk_proof (st : ZKPoll) (poll : Poll) (proof_data : ProofData) :
    Except Error Bool :=
  match deserialize_proof proof_data.proof with
  | .error _ => .error .ProofDeserializationError
  | .ok noir_proof =>
    let expected := construct_public_inputs poll proof_data
    if !validate_public_inputs noir_proof.public_inputs expected then .ok false
    else .ok (verify_noir_proof st noir_proof)

/-- `validate_nullifier_format` (lines 471-474): not all-zero. -/
def validate_nullifier_format (nullifier : Bytes) : Bool :=
  !(nullifier.all fun b => b == 0)

/-- Constructor `new`. -/
def ZKPoll.new : ZKPoll :=
  { next_poll_id := 1
    polls := Mapping.empty
    used_nullifiers := Mapping.empty
    poll_results := Mapping.empty
    verification_key := none }

/-- Constructor `new_with_vk`. -/
def ZKPoll.new_with_vk (vk : Bytes) : ZKPoll :=
  { ZKPoll.new with verification_key := some vk }

/-- `set_verification_key` (always succeeds). -/
def set_verification_key (st : ZKPoll) (vk : Bytes) : Except Error ZKPoll :=
  .ok { st with verification_key := some vk }

/-- `create_poll` (lines 153-194). The source inserts the poll and then
increments the id counter with a checked add; a failed `checked_add`
aborts the call and the host reverts the insert, so the success branch
commits both writes and the error branches carry no state. -/
def create_poll (st : ZKPoll) (env : Env) (title description : Bytes)
    (options : List Bytes) (merkle_root : Bytes) (duration_blocks : Nat) :
    Except Error (Nat × ZKPoll) :=
  match checked_add_u32 env.block_number duration_blocks with
  | none => .error .ArithmeticOverflow
  | some end_block =>
    match checked_add_u32 st.next_poll_id 1 with
    | none => .error .ArithmeticOverflow
    | some nid =>
      .ok (st.next_poll_id,
        { st with
          next_poll_id := nid,
          polls := st.polls.insert st.next_poll_id
            { id := st.next_poll_id, title := title, description := description
              options := options, merkle_root := merkle_root, creator := env.caller
              is_active := true, total_votes := 0, end_block := end_block } })

/-- `vote` (lines 198-247), checks in source order. The source performs
its three storage writes in sequence (mark nullifier, bump the option
tally, store the poll with bumped `total_votes`); an error return reverts
every write of the call, so the success branch gathers the three writes
into the single committed state and every error branch carries none.
The tally read (`current_votes`) happens before any write and touches a
different map than the nullifier insert, so the gathering is exact. -/
def vote (st : ZKPoll) (env : Env) (poll_id : Nat) (proof_data : ProofData) :
    Except Error ZKPoll :=
  match st.polls.get poll_id with
  | none => .error .PollNotFound
  | some poll =>
    if poll.is_active = false ∨ poll.end_block < env.block_number then
      .error .PollEnded
    else if (st.used_nullifiers.get (poll_id, proof_data.nullifier)).getD false then
      .error .NullifierAlreadyUsed
    else if poll.options.length ≤ proof_data.vote_choice then
      .error .InvalidVoteChoice
    else if !validate_nullifier_format proof_data.nullifier then
      .error .InvalidNullifierFormat
    else
      match verify_zk_proof st poll proof_data with
      | .error e => .error e
      | .ok false => .error .InvalidProof
      | .ok true =>
        match checked_add_u32 ((st.poll_results.get (poll_id, proof_data.vote_choice)).getD 0) 1 with
        | none => .error .ArithmeticOverflow
        | some new_vote_count =>
          match checked_add_u32 poll.total_votes 1 with
          | none => .error .ArithmeticOverflow
          | some tv =>
            .ok { st with
              polls := st.polls.insert poll_id { poll with total_votes := tv },
              used_nullifiers :=
                st.used_nullifiers.insert (poll_id, proof_data.nullifier) true,
              poll_results :=
                st.poll_results.insert (poll_id, proof_data.vote_choice) new_vote_count }

/-- `end_poll` (lines 251-267). -/
def end_poll (st : ZKPoll) (env : Env) (poll_id : Nat) : Except Error ZKPoll :=
  match st.polls.get poll_id with
  | none => .error .PollNotFound
  | some poll =>
    if poll.creator ≠ env.caller then .error .NotPollCreator
    else .ok { st with polls := st.polls.insert poll_id { poll with is_active := false } }

/-- `get_poll`. -/
def get_poll (st : ZKPoll) (poll_id : Nat) : Option Poll :=
  st.polls.get poll_id

/-- One tally read: `poll_results.get((poll_id, i)).unwrap_or(0)`. -/
def getCount (st : ZKPoll) (poll_id i : Nat) : Nat :=
  (st.poll_results.get (poll_id, i)).getD 0

/-- `usize::try_into` a `u32` (`u32::try_from(i).ok()`). -/
def u32_try_from (i : Nat) : Option Nat :=
  if i < 2 ^ 32 then some i else none

/-- The accumulation loop of `get_results`: counts for option indices
`0 .. n-1` in ascending order, `none` if some index does not fit `u32`. -/
def collectResults (st : ZKPoll) (poll_id : Nat) : Nat → Option (List Nat)
  | 0 => some []
  | n + 1 =>
    match collectResults st poll_id n with
    | none => none
    | some rest =>
      match u32_try_from n with
      | none => none
      | some i => some (rest ++ [getCount st poll_id i])

/-- `get_results` (lines 277-289). -/
def get_results (st : ZKPoll) (poll_id : Nat) : Option (List Nat) :=
  match st.polls.get poll_id with
  | none => none
  | some poll => collectResults st poll_id poll.options.length

/-- `is_nullifier_used`. -/
def is_nullifier_used (st : ZKPoll) (poll_id : Nat) (nullifier : Bytes) : Bool :=
  (st.used_nullifiers.get (poll_id, nullifier)).getD false

/-- State observed by the caller after a call: the new state on success,
the unchanged pre-call state on error (transactional revert). -/
def postState (r : Except Error ZKPoll) (st : ZKPoll) : ZKPoll :=
  match r with
  | .ok st2 => st2
  | .error _ => st

/-- Contract states reachable from a constructor through successful calls.
A failed call leaves the state unchanged (the error branch carries no
state), so failed operations preserve every state property trivially and
need no transition rule. -/
inductive Reachable : ZKPoll → Prop
  | init : Reachable ZKPoll.new
  | init_vk (vk : Bytes) : Reachable (ZKPoll.new_with_vk vk)
  | create_ok {st st2 : ZKPoll} {env : Env} {t d : Bytes} {opts : List Bytes}
      {mr : Bytes} {dur pid : Nat} :
      Reachable st → create_poll st env t d opts mr dur = .ok (pid, st2) →
      Reachable st2
  | vote_ok {st st2 : ZKPoll} {env : Env} {pid : Nat} {pd : ProofData} :
      Reachable st → vote st env pid pd = .ok st2 → Reachable st2
  | end_ok {st st2 : ZKPoll} {env : Env} {pid : Nat} :
      Reachable st → end_poll st env pid = .ok st2 → Reachable st2
  | setvk_ok {st st2 : ZKPoll} {vk : Bytes} :
      Reachable st → set_verification_key st vk = .ok st2 → Reachable st2

/-- Little-endian 4-byte encoding of a `u32` value. -/
def u32le (n : Nat) : Bytes :=
  [n % 256, n / 256 % 256, n / 65536 % 256, n / 16777216 % 256]

/-- One input under the codec's layout: `u32` length prefix then bytes. -/
def encode_input (s : Bytes) : Bytes := u32le s.length ++ s

/-- Modelled from the spec (section 4.2 wire layout; the repository ships
no encoder, only the decoder): `[u32 proof_len][proof bytes]
[u32 input_count][per input: u32 input_len, UTF-8 bytes]`, all length
prefixes little-endian. -/
def encode_proof_spec (proof : Bytes) (inputs : List Bytes) : Bytes :=
  u32le proof.length ++ proof ++ u32le inputs.length ++ (inputs.map encode_input).flatten

/-- Decidable equality on `Except`, so concrete decoder and verifier
results can be checked by `decide`. -/
instance {ε α : Type _} [DecidableEq ε] [DecidableEq α] : DecidableEq (Except ε α) := fun x y =>
  match x, y with
  | .ok a, .ok b =>
    if h : a = b then isTrue (by rw [h]) else isFalse (fun hc => h (Except.ok.inj hc))
  | .error a, .error b =>
    if h : a = b then isTrue (by rw [h]) else isFalse (fun hc => h (Except.error.inj hc))
  | .ok _, .error _ => isFalse (fun hc => Except.noConfusion hc)
  | .error _, .ok _ => isFalse (fun hc => Except.noConfusion hc)

/-! Concrete scenario used by witnesses: one two-option poll with id 1,
all-zero merkle root, creator 5, end block 10; a nullifier whose first byte
is 1; a proof buffer encoding proof bytes `[7]` together with the four
expected public-input strings "0", "1", "1", "2". -/

/-- Witness poll. -/
def pollW : Poll :=
  { id := 1, title := [116], description := [100], options := [[97], [98]]
    merkle_root := List.replicate 32 0, creator := 5, is_active := true
    total_votes := 0, end_block := 10 }

/-- Witness nullifier: 32 bytes, first byte 1. -/
def nulW : Bytes := 1 :: List.replicate 31 0

/-- Witness proof buffer: proof bytes `[7]`, inputs "0", "1", "1", "2". -/
def proofBufW : Bytes := encode_proof_spec [7] [[48], [49], [49], [50]]

/-- Decoded form of `proofBufW`. -/
def npW : NoirProof := ⟨[7], [[48], [49], [49], [50]]⟩

/-- Witness vote payload: valid proof for `pollW` and `nulW`, option 0. -/
def pdW : ProofData := ⟨proofBufW, nulW, 0⟩

/-- The same payload voting option 1. -/
def pdW2 : ProofData := ⟨proofBufW, nulW, 1⟩

/-- Payload with the all-zero nullifier and out-of-range option 5. -/
def pd9 : ProofData := ⟨[], List.replicate 32 0, 5⟩

/-- Witness environment: caller 5 (the creator), block height 3. -/
def envW : Env := ⟨5, 3⟩

/-- Environment past the poll's end block. -/
def envLate : Env := ⟨5, 11⟩

/-- Witness contract state: `pollW` stored under id 1, verification key
present, no nullifier used, no tallies. -/
def stW : ZKPoll :=
  { next_poll_id := 2, polls := Mapping.empty.insert 1 pollW
    used_nullifiers := Mapping.empty, poll_results := Mapping.empty
    verification_key := some [1] }

/-- `stW` after the successful vote `vote stW envW 1 pdW`. -/
def stB : ZKPoll :=
  { next_poll_id := 2
    polls := (Mapping.empty.insert 1 pollW).insert 1 { pollW with total_votes := 1 }
    used_nullifiers := Mapping.empty.insert (1, nulW) true
    poll_results := Mapping.empty.insert (1, 0) 1
    verification_key := some [1] }

/-- `pollW` after one accepted vote. -/
def pollB : Poll := { pollW with total_votes := 1 }

/-- `stB` after the creator ends the poll. -/
def stC : ZKPoll :=
  { stB with polls := stB.polls.insert 1 { pollB with is_active := false } }

/-- `stW` with `pollW`'s flag already cleared. -/
def stI : ZKPoll :=
  { stW with polls := Mapping.empty.insert 1 { pollW with is_active := false } }

/-- `stW` with the witness nullifier already consumed for poll 1. -/
def stU : ZKPoll :=
  { stW with used_nullifiers := Mapping.empty.insert (1, nulW) true }

/-- The poll created by `create_poll ZKPoll.new envW ...` in the C4
witness: end block 3 + 10 = 13, no verification key involved. -/
def pollC4 : Poll :=
  { id := 1, title := [116], description := [100], options := [[97], [98]]
    merkle_root := List.replicate 32 0, creator := 5, is_active := true
    total_votes := 0, end_block := 13 }

/-- The state produced by that creation call. -/
def stC4 : ZKPoll :=
  { next_poll_id := 2, polls := Mapping.empty.insert 1 pollC4
    used_nullifiers := Mapping.empty, poll_results := Mapping.empty
    verification_key := none }

/-- Vote payload with the all-zero nullifier and in-range option 0. -/
def pdZ : ProofData := ⟨[], List.replicate 32 0, 0⟩

/-- Sum of the per-option counters of a poll over indices `0 .. n-1`. -/
def sumCounts (st : ZKPoll) (poll_id n : Nat) : Nat :=
  ∑ i ∈ Finset.range n, getCount st poll_id i

/-- Internal soundness invariant of the contract storage: poll ids at or
above `next_poll_id` are untouched (no poll record, no counters), and
every stored poll's `total_votes` equals the sum of its per-option
counters. -/
def Inv (st : ZKPoll) : Prop :=
  (∀ pid, st.next_poll_id ≤ pid → st.polls.get pid = none) ∧
  (∀ pid i, st.next_poll_id ≤ pid → st.poll_results.get (pid, i) = none) ∧
  (∀ pid poll, st.polls.get pid = some poll →
    poll.total_votes = sumCounts st pid poll.options.length)

end ZkPoll

namespace ZkPoll

/-! ## Helper lemmas -/

theorem Mapping.get_insert {K V : Type} [DecidableEq K] (m : Mapping K V) (k q : K) (v : V) :
    (m.insert k v).get q = if q = k then some v else m.get q := rfl

theorem checked_add_u32_some {a b c : Nat} :
    checked_add_u32 a b = some c ↔ a + b < 2 ^ 32 ∧ c = a + b := by
  unfold checked_add_u32
  split
  · constructor
    · intro h
      exact ⟨by assumption, (Option.some.inj h).symm⟩
    · intro ⟨_, hc⟩
      rw [hc]
  · constructor
    · intro h
      exact Option.noConfusion h
    · intro ⟨hlt, _⟩
      exact absurd hlt (by assumption)

theorem zip_all_eq {a b : List Bytes} (hlen : a.length = b.length) :
    ((a.zip b).all fun pe => pe.1 == pe.2) = true ↔ a = b := by
  induction a generalizing b with
  | nil =>
    cases b with
    | nil => simp
    | cons y ys => simp at hlen
  | cons x xs ih =>
    cases b with
    | nil => simp at hlen
    | cons y ys =>
      simp only [List.zip_cons_cons, List.all_cons, Bool.and_eq_true, beq_iff_eq]
      rw [ih (by simpa using hlen)]
      simp

theorem validate_public_inputs_iff (a b : List Bytes) :
    validate_public_inputs a b = true ↔ a = b := by
  unfold validate_public_inputs
  by_cases hlen : a.length = b.length
  · simp only [hlen, ne_eq, not_true_eq_false, if_false]
    exact zip_all_eq hlen
  · rw [if_pos (by simpa using hlen)]
    constructor
    · intro h
      exact Bool.noConfusion h
    · intro h
      exact absurd (by rw [h]) hlen

/-- Inversion of a successful `vote`: every guard passed and the
resulting state is the original with the three writes applied. -/
theorem vote_ok_inversion {st : ZKPoll} {env : Env} {pid : Nat} {pd : ProofData} {st2 : ZKPoll}
    (h : vote st env pid pd = .ok st2) :
    ∃ poll, st.polls.get pid = some poll ∧ poll.is_active = true ∧
      env.block_number ≤ poll.end_block ∧
      (st.used_nullifiers.get (pid, pd.nullifier)).getD false = false ∧
      pd.vote_choice < poll.options.length ∧
      validate_nullifier_format pd.nullifier = true ∧
      verify_zk_proof st poll pd = .ok true ∧
      getCount st pid pd.vote_choice + 1 < 2 ^ 32 ∧
      poll.total_votes + 1 < 2 ^ 32 ∧
      st2 = { st with
        polls := st.polls.insert pid { poll with total_votes := poll.total_votes + 1 },
        used_nullifiers := st.used_nullifiers.insert (pid, pd.nullifier) true,
        poll_results := st.poll_results.insert (pid, pd.vote_choice)
          (getCount st pid pd.vote_choice + 1) } := by
  unfold vote at h
  split at h
  · exact Except.noConfusion h
  rename_i poll hp
  refine ⟨poll, hp, ?_⟩
  split at h
  · exact Except.noConfusion h
  rename_i hActive
  rw [not_or] at hActive
  obtain ⟨hAct, hEnd⟩ := hActive
  split at h
  · exact Except.noConfusion h
  rename_i hUsed
  split at h
  · exact Except.noConfusion h
  rename_i hChoice
  split at h
  · exact Except.noConfusion h
  rename_i hFmt
  split at h
  · exact Except.noConfusion h
  · exact Except.noConfusion h
  rename_i b hv
  split at h
  · exact Except.noConfusion h
  rename_i nvc hc1
  split at h
  · exact Except.noConfusion h
  rename_i tv hc2
  obtain ⟨hb1, hb2⟩ := checked_add_u32_some.mp hc1
  obtain ⟨hb3, hb4⟩ := checked_add_u32_some.mp hc2
  refine ⟨by simpa using hAct, by omega, by simpa using hUsed, by omega,
    by simpa using hFmt, hv, by simpa [getCount] using hb1, hb3, ?_⟩
  have hst := (Except.ok.inj h).symm
  rw [hst, hb2, hb4]
  rfl

/-- Claim C8: a vote on an existing poll whose end block lies strictly
below the current height fails with PollEnded even while `is_active` is
still true, and a vote on a poll whose `is_active` flag is false also
fails with PollEnded; both closure conditions are rejected identically. -/
theorem vote_poll_ended :
    ∀ (st : ZKPoll) (env : Env) (pid : Nat) (pd : ProofData) (poll : Poll),
      st.polls.get pid = some poll →
      (poll.end_block < env.block_number → vote st env pid pd = .error .PollEnded) ∧
      (poll.is_active = false → vote st env pid pd = .error .PollEnded) := by
  intro st env pid pd poll hp
  constructor
  · intro hlt
    unfold vote
    rw [hp]
    simp [hlt]
  · intro hia
    unfold vote
    rw [hp]
    simp [hia]

/-- Witness for C8: concrete expired-poll and deactivated-poll votes. -/
theorem vote_poll_ended_witness :
    vote stW envLate 1 pdW = .error .PollEnded ∧
    vote stI envW 1 pdW = .error .PollEnded :=
  ⟨(vote_poll_ended stW envLate 1 pdW pollW rfl).1 (by decide),
   (vote_poll_ended stI envW 1 pdW { pollW with is_active := false } rfl).2 rfl⟩

/-- Counterexample to claim C9 as stated: on an existing, active,
non-expired poll, a vote carrying the all-zero nullifier together with an
out-of-range option index fails with InvalidVoteChoice, not
InvalidNullifierFormat, because the option check precedes the nullifier
format check. -/
theorem zero_nullifier_counterexample :
    pd9.nullifier = List.replicate 32 0 ∧
    stW.polls.get 1 = some pollW ∧ pollW.is_active = true ∧
    envW.block_number ≤ pollW.end_block ∧
    vote stW envW 1 pd9 = .error .InvalidVoteChoice ∧
    Error.InvalidVoteChoice ≠ Error.InvalidNullifierFormat :=
  ⟨rfl, rfl, rfl, by decide, rfl, by decide⟩

/-- Claim C9 (amended): a vote carrying the all-zero 32-byte nullifier is
never accepted and leaves the state unchanged; it fails with
InvalidNullifierFormat whenever the poll exists, is active and unexpired,
the pair is not already consumed, and the option index is in range (the
earlier checks fire first otherwise). -/
theorem zero_nullifier_amended :
    ∀ (st : ZKPoll) (env : Env) (pid : Nat) (pd : ProofData),
      pd.nullifier = List.replicate 32 0 →
      (vote st env pid pd).isOk = false ∧
      postState (vote st env pid pd) st = st ∧
      (∀ poll, st.polls.get pid = some poll → poll.is_active = true →
        env.block_number ≤ poll.end_block →
        is_nullifier_used st pid pd.nullifier = false →
        pd.vote_choice < poll.options.length →
        vote st env pid pd = .error .InvalidNullifierFormat) := by
  intro st env pid pd hz
  have hfmt : validate_nullifier_format pd.nullifier = false := by
    rw [hz]; decide
  have hok : (vote st env pid pd).isOk = false := by
    cases hv : vote st env pid pd with
    | error e => rfl
    | ok st2 =>
      obtain ⟨poll, _, _, _, _, _, hf, _⟩ := vote_ok_inversion hv
      rw [hfmt] at hf
      exact Bool.noConfusion hf
  refine ⟨hok, ?_, ?_⟩
  · cases hv : vote st env pid pd with
    | error e => rfl
    | ok st2 => rw [hv] at hok; exact Bool.noConfusion hok
  · intro poll hp hact hend hused hchoice
    unfold vote
    rw [hp]
    rw [is_nullifier_used] at hused
    simp [hact, Nat.not_lt.mpr hend, hused, Nat.not_le.mpr hchoice, hfmt]

/-- Claim C3: every vote call is all-or-nothing. On any error the
post-call state equals the pre-call state (the host reverts the writes);
on success the nullifier marking, the chosen option's tally increment and
the poll's `total_votes` increment all take effect together, each under
its 32-bit overflow check. -/
theorem vote_atomicity :
    ∀ (st : ZKPoll) (env : Env) (pid : Nat) (pd : ProofData),
      (∀ e, vote st env pid pd = .error e → postState (vote st env pid pd) st = st) ∧
      (∀ st2, vote st env pid pd = .ok st2 →
        st2.used_nullifiers.get (pid, pd.nullifier) = some true ∧
        st2.poll_results.get (pid, pd.vote_choice) =
          some (getCount st pid pd.vote_choice + 1) ∧
        getCount st pid pd.vote_choice + 1 < 2 ^ 32 ∧
        ∃ poll, st.polls.get pid = some poll ∧ poll.total_votes + 1 < 2 ^ 32 ∧
          st2.polls.get pid = some { poll with total_votes := poll.total_votes + 1 }) := by
  intro st env pid pd
  constructor
  · intro e he
    rw [he]
    rfl
  · intro st2 hv
    obtain ⟨poll, hp, _, _, _, _, _, _, hcnt, htv, hst⟩ := vote_ok_inversion hv
    subst hst
    refine ⟨?_, ?_, hcnt, poll, hp, htv, ?_⟩
    · simp [Mapping.get, Mapping.insert]
    · simp [Mapping.get, Mapping.insert]
    · simp [Mapping.get, Mapping.insert]

/-- Witness for C3: the concrete successful vote `vote stW envW 1 pdW`. -/
theorem vote_atomicity_witness :
    stB.used_nullifiers.get (1, nulW) = some true ∧
    stB.poll_results.get (1, 0) = some (getCount stW 1 0 + 1) ∧
    getCount stW 1 0 + 1 < 2 ^ 32 ∧
    ∃ poll, stW.polls.get 1 = some poll ∧ poll.total_votes + 1 < 2 ^ 32 ∧
      stB.polls.get 1 = some { poll with total_votes := poll.total_votes + 1 } :=
  (vote_atomicity stW envW 1 pdW).2 stB rfl

/-- Counterexample to claim C7 as stated: after a successful vote with a
given (poll, nullifier) pair, a subsequent vote with the same pair does
not always fail with NullifierAlreadyUsed — if the creator has ended the
poll in between, it fails with PollEnded, because the activity check
precedes the nullifier check. -/
theorem nullifier_replay_counterexample :
    vote stW envW 1 pdW = .ok stB ∧
    end_poll stB envW 1 = .ok stC ∧
    pdW2.nullifier = pdW.nullifier ∧
    vote stC envW 1 pdW2 = .error .PollEnded ∧
    Error.PollEnded ≠ Error.NullifierAlreadyUsed :=
  ⟨rfl, rfl, rfl, rfl, by decide⟩

/-- Claim C7 (amended): once a (poll, nullifier) pair is recorded as
consumed, a vote with that pair never succeeds, and fails precisely with
NullifierAlreadyUsed whenever the poll still exists, is active and is
unexpired, regardless of the chosen option; a successful vote records the
pair and leaves the ledger entries of every other poll unchanged, so the
same nullifier stays usable in a different poll. -/
theorem nullifier_replay_amended :
    (∀ (st : ZKPoll) (env : Env) (pid : Nat) (pd : ProofData),
      is_nullifier_used st pid pd.nullifier = true →
        (vote st env pid pd).isOk = false ∧
        (∀ poll, st.polls.get pid = some poll → poll.is_active = true →
          env.block_number ≤ poll.end_block →
          vote st env pid pd = .error .NullifierAlreadyUsed)) ∧
    (∀ (st st2 : ZKPoll) (env : Env) (pid : Nat) (pd : ProofData),
      vote st env pid pd = .ok st2 →
        is_nullifier_used st2 pid pd.nullifier = true ∧
        ∀ pid2 nul2, pid2 ≠ pid →
          st2.used_nullifiers.get (pid2, nul2) = st.used_nullifiers.get (pid2, nul2)) := by
  constructor
  · intro st env pid pd hused
    rw [is_nullifier_used] at hused
    constructor
    · cases hv : vote st env pid pd with
      | error e => rfl
      | ok st2 =>
        obtain ⟨poll, _, _, _, hu, _⟩ := vote_ok_inversion hv
        rw [hused] at hu
        exact Bool.noConfusion hu
    · intro poll hp hact hend
      unfold vote
      rw [hp]
      simp [hact, Nat.not_lt.mpr hend, hused]
  · intro st st2 env pid pd hv
    obtain ⟨poll, hp, _, _, _, _, _, _, _, _, hst⟩ := vote_ok_inversion hv
    subst hst
    constructor
    · rw [is_nullifier_used]
      simp [Mapping.get, Mapping.insert]
    · intro pid2 nul2 hne
      simp [Mapping.get, Mapping.insert, hne]

/-- Witness for the amended C7: a vote on a state whose ledger already
holds the pair fails with NullifierAlreadyUsed. -/
theorem nullifier_replay_amended_witness :
    vote stU envW 1 pdW = .error .NullifierAlreadyUsed :=
  (nullifier_replay_amended.1 stU envW 1 pdW rfl).2 pollW rfl rfl (by decide)

/-- Witness for the amended C9: an in-range vote with the zero nullifier
on the live witness poll fails with InvalidNullifierFormat. -/
theorem zero_nullifier_amended_witness :
    vote stW envW 1 pdZ = .error .InvalidNullifierFormat :=
  (zero_nullifier_amended stW envW 1 pdZ rfl).2.2 pollW rfl rfl (by decide) rfl (by decide)

/-- Characterization of `basic_proof_validation`. -/
theorem basic_proof_validation_iff (np : NoirProof) :
    basic_proof_validation np = true ↔
      (0 < np.proof_bytes.length ∧ np.proof_bytes.length ≤ 10000 ∧
       np.public_inputs.length = 4 ∧
       ∀ s ∈ np.public_inputs, s ≠ [] ∧
         ((parseUnsigned U64MAX s).isSome = true ∨ (parseUnsigned U128MAX s).isSome = true)) := by
  unfold basic_proof_validation
  split
  · rename_i hbad
    simp only [Bool.or_eq_true, List.isEmpty_iff, decide_eq_true_eq] at hbad
    constructor
    · intro h; exact Bool.noConfusion h
    · intro ⟨h1, h2, _⟩
      cases hbad with
      | inl hb => rw [hb] at h1; simp at h1
      | inr hb => omega
  · rename_i hgood
    simp only [Bool.or_eq_true, List.isEmpty_iff, decide_eq_true_eq, not_or] at hgood
    obtain ⟨hne, hle⟩ := hgood
    split
    · rename_i hlen
      constructor
      · intro h; exact Bool.noConfusion h
      · intro ⟨_, _, h4, _⟩; exact absurd h4 hlen
    · rename_i hlen
      rw [List.all_eq_true]
      have h0 : 0 < np.proof_bytes.length := List.length_pos.mpr hne
      constructor
      · intro h
        refine ⟨h0, by omega, not_not.mp hlen, ?_⟩
        intro s hs
        have hthis := h s hs
        rw [Bool.and_eq_true, Bool.or_eq_true] at hthis
        obtain ⟨he, hor⟩ := hthis
        refine ⟨?_, hor⟩
        intro hnil
        rw [hnil] at he
        simp at he
      · intro ⟨_, _, _, hall⟩ s hs
        obtain ⟨hne2, hor⟩ := hall s hs
        rw [Bool.and_eq_true, Bool.or_eq_true]
        refine ⟨?_, hor⟩
        cases hsnil : s with
        | nil => exact absurd hsnil hne2
        | cons a l => simp [hsnil]

/-- Characterization of `verify_noir_proof`: structural validity plus a
present verification key. -/
theorem verify_noir_proof_iff (st : ZKPoll) (np : NoirProof) :
    verify_noir_proof st np = true ↔
      basic_proof_validation np = true ∧ st.verification_key.isSome = true := by
  unfold verify_noir_proof
  cases hb : basic_proof_validation np with
  | false => simp
  | true =>
    simp only [Bool.not_true, if_false]
    cases hk : st.verification_key with
    | none => simp
    | some vk => simp


/-- Claim C1: `verify_zk_proof` errors (with ProofDeserializationError)
exactly when the proof buffer fails to decode; otherwise it returns a
boolean. It returns Ok false whenever the decoded public inputs differ
from the four expected inputs, and Ok true precisely when they match and
the decoded proof-byte length is in (0, 10000], there are exactly 4
public inputs, each non-empty and parsing as an unsigned 64- or 128-bit
decimal integer, and a verification key is present. -/
theorem verify_zk_proof_characterization :
    ∀ (st : ZKPoll) (poll : Poll) (pd : ProofData),
      (∀ e, deserialize_proof pd.proof = .error e →
        verify_zk_proof st poll pd = .error .ProofDeserializationError) ∧
      (∀ np, deserialize_proof pd.proof = .ok np →
        (verify_zk_proof st poll pd = .ok false ∨ verify_zk_proof st poll pd = .ok true) ∧
        (np.public_inputs ≠ construct_public_inputs poll pd →
          verify_zk_proof st poll pd = .ok false) ∧
        (verify_zk_proof st poll pd = .ok true ↔
          np.public_inputs = construct_public_inputs poll pd ∧
          0 < np.proof_bytes.length ∧ np.proof_bytes.length ≤ 10000 ∧
          np.public_inputs.length = 4 ∧
          (∀ s ∈ np.public_inputs, s ≠ [] ∧
            ((parseUnsigned U64MAX s).isSome = true ∨ (parseUnsigned U128MAX s).isSome = true)) ∧
          st.verification_key.isSome = true)) := by
  intro st poll pd
  constructor
  · intro e he
    unfold verify_zk_proof
    rw [he]
  · intro np hnp
    have hv : verify_zk_proof st poll pd =
        (if !validate_public_inputs np.public_inputs (construct_public_inputs poll pd)
         then .ok false else .ok (verify_noir_proof st np)) := by
      unfold verify_zk_proof
      rw [hnp]
    by_cases hval :
        validate_public_inputs np.public_inputs (construct_public_inputs poll pd) = true
    · have heq := (validate_public_inputs_iff _ _).mp hval
      rw [hval] at hv
      simp at hv
      refine ⟨?_, ?_, ?_⟩
      · cases hb : verify_noir_proof st np with
        | false => left; rw [hv, hb]
        | true => right; rw [hv, hb]
      · intro hne; exact absurd heq hne
      · rw [hv]
        constructor
        · intro hok
          have hvn : verify_noir_proof st np = true := Except.ok.inj hok
          obtain ⟨hbasic, hkey⟩ := (verify_noir_proof_iff st np).mp hvn
          obtain ⟨a1, a2, a3, a4⟩ := (basic_proof_validation_iff np).mp hbasic
          exact ⟨heq, a1, a2, a3, a4, hkey⟩
        · intro ⟨_, a1, a2, a3, a4, hkey⟩
          have hbasic := (basic_proof_validation_iff np).mpr ⟨a1, a2, a3, a4⟩
          rw [(verify_noir_proof_iff st np).mpr ⟨hbasic, hkey⟩]
    · have hvf :
          validate_public_inputs np.public_inputs (construct_public_inputs poll pd) = false := by
        cases h2 : validate_public_inputs np.public_inputs (construct_public_inputs poll pd) with
        | false => rfl
        | true => exact absurd h2 hval
      rw [hvf] at hv
      simp at hv
      refine ⟨Or.inl hv, fun _ => hv, ?_⟩
      constructor
      · intro hok
        rw [hv] at hok
        exact absurd (Except.ok.inj hok) (by simp)
      · intro ⟨heq2, _⟩
        exact absurd ((validate_public_inputs_iff _ _).mpr heq2) hval

/-- Witness for C1: the concrete valid proof verifies to Ok true. -/
theorem verify_zk_proof_characterization_witness :
    verify_zk_proof stW pollW pdW = .ok true :=
  (((verify_zk_proof_characterization stW pollW pdW).2 npW rfl).2.2).mpr
    ⟨by decide, by decide, by decide, by decide, by decide, by decide⟩

/-- A four-byte read is in bounds whenever `off + 4 ≤ len`. -/
theorem u32leAt_isOk (buf : Bytes) (off : Nat) (h : off + 4 ≤ buf.length) :
    ∃ v, u32leAt buf off = .ok v := by
  have g : ∀ i, i < buf.length → ∃ b, buf.get? i = some b := by
    intro i hi
    exact ⟨buf.get ⟨i, hi⟩, List.get?_eq_get hi⟩
  obtain ⟨b0, h0⟩ := g off (by omega)
  obtain ⟨b1, h1⟩ := g (off + 1) (by omega)
  obtain ⟨b2, h2⟩ := g (off + 2) (by omega)
  obtain ⟨b3, h3⟩ := g (off + 3) (by omega)
  refine ⟨b0 + 256 * b1 + 65536 * b2 + 16777216 * b3, ?_⟩
  unfold u32leAt
  rw [h0, h1, h2, h3]

/-- A slice with checked bounds succeeds. -/
theorem sliceE_ok (buf : Bytes) (a b : Nat) (h1 : a ≤ b) (h2 : b ≤ buf.length) :
    sliceE buf a b = .ok ((buf.drop a).take (b - a)) := by
  unfold sliceE
  rw [if_pos ⟨h1, h2⟩]

/-- The input loop never reaches an out-of-bounds access: every read is
guarded by a preceding length check. -/
theorem readInputs_not_oob (buf : Bytes) : ∀ (n off : Nat), readInputs buf n off ≠ .error .oob := by
  intro n
  induction n with
  | zero => intro off h; simp [readInputs] at h
  | succ n ih =>
    intro off h
    simp only [readInputs] at h
    split at h
    · simp at h
    rename_i hb1
    split at h
    · rename_i e he
      obtain ⟨v, hv⟩ := u32leAt_isOk buf off (by omega)
      rw [hv] at he
      exact Except.noConfusion he
    rename_i ilen hlen
    split at h
    · simp at h
    rename_i hb2
    split at h
    · rename_i e he
      rw [sliceE_ok buf (off + 4) (off + 4 + ilen) (by omega) (by omega)] at he
      exact Except.noConfusion he
    rename_i bytes hbytes
    split at h
    · split at h
      · rename_i e he
        have := Except.error.inj h
        subst this
        exact ih _ he
      · simp at h
    · simp at h


/-- Facts about a successful input loop: every returned input passed the
UTF-8 check, and the final offset accounts for all consumed bytes and
stays within the buffer. -/
theorem readInputs_ok_facts (buf : Bytes) :
    ∀ (n off : Nat) (l : List Bytes) (off2 : Nat),
      readInputs buf n off = .ok (l, off2) →
      (∀ s ∈ l, validUtf8 s = true) ∧
      off2 = off + l.foldr (fun s a => 4 + s.length + a) 0 ∧
      (off ≤ buf.length → off2 ≤ buf.length) := by
  intro n
  induction n with
  | zero =>
    intro off l off2 h
    simp [readInputs] at h
    obtain ⟨hl, ho⟩ := h
    subst hl
    subst ho
    simp
  | succ n ih =>
    intro off l off2 h
    simp only [readInputs] at h
    split at h
    · exact Except.noConfusion h
    rename_i hb1
    split at h
    · exact Except.noConfusion h
    rename_i ilen hlen
    split at h
    · exact Except.noConfusion h
    rename_i hb2
    split at h
    · exact Except.noConfusion h
    rename_i bytes hbytes
    split at h
    · rename_i hutf
      split at h
      · exact Except.noConfusion h
      rename_i rest roff hrest
      have hpair := Except.ok.inj h
      injection hpair with h1 h2
      subst h1
      subst h2
      obtain ⟨ha, hb, hc⟩ := ih (off + 4 + ilen) rest roff hrest
      have hblen : bytes.length = ilen := by
        rw [sliceE_ok buf (off + 4) (off + 4 + ilen) (by omega) (by omega)] at hbytes
        have := Except.ok.inj hbytes
        rw [← this]
        rw [List.length_take, List.length_drop]
        omega
      refine ⟨?_, ?_, ?_⟩
      · intro s hs
        cases hs with
        | head => exact hutf
        | tail _ hs2 => exact ha s hs2
      · simp only [List.foldr]
        omega
      · intro _
        exact hc (by omega)
    · exact Except.noConfusion h


/-- `deserialize_proof` never reaches an out-of-bounds access. -/
theorem deserialize_not_oob (buf : Bytes) : deserialize_proof buf ≠ .error .oob := by
  intro h
  simp only [deserialize_proof] at h
  split at h
  · simp at h
  rename_i h8
  split at h
  · rename_i e he
    obtain ⟨v, hv⟩ := u32leAt_isOk buf 0 (by omega)
    rw [hv] at he
    exact Except.noConfusion he
  rename_i plen hplen
  split at h
  · simp at h
  rename_i hbound
  split at h
  · rename_i e he
    rw [sliceE_ok buf 4 (4 + plen) (by omega) (by omega)] at he
    exact Except.noConfusion he
  rename_i pdata hpdata
  split at h
  · rename_i e he
    obtain ⟨v, hv⟩ := u32leAt_isOk buf (4 + plen) (by omega)
    rw [hv] at he
    exact Except.noConfusion he
  rename_i ninp hninp
  split at h
  · rename_i e he
    have he2 := Except.error.inj h
    subst he2
    exact readInputs_not_oob buf ninp (8 + plen) he
  · simp at h

/-- Claim C2: `deserialize_proof` is total and never reads out of bounds
on any buffer (the panic outcome `oob` is unreachable); it fails when the
buffer is shorter than 8 bytes; a success implies every decoded input's
bytes passed UTF-8 validation and all declared lengths fit inside the
buffer (so any declared length past the end forces a failure); decode
failures surface to `verify_zk_proof` callers as
ProofDeserializationError. -/
theorem deserialize_proof_safety :
    (∀ buf : Bytes, deserialize_proof buf ≠ .error DesErr.oob) ∧
    (∀ buf : Bytes, buf.length < 8 → deserialize_proof buf = .error DesErr.malformed) ∧
    (∀ (buf : Bytes) (np : NoirProof), deserialize_proof buf = .ok np →
      (∀ s ∈ np.public_inputs, validUtf8 s = true) ∧
      8 + np.proof_bytes.length +
        np.public_inputs.foldr (fun s a => 4 + s.length + a) 0 ≤ buf.length) ∧
    (∀ (st : ZKPoll) (poll : Poll) (pd : ProofData) (e : DesErr),
      deserialize_proof pd.proof = .error e →
      verify_zk_proof st poll pd = .error Error.ProofDeserializationError) := by
  refine ⟨deserialize_not_oob, ?_, ?_, ?_⟩
  · intro buf h
    unfold deserialize_proof
    rw [if_pos h]
  · intro buf np h
    simp only [deserialize_proof] at h
    split at h
    · exact Except.noConfusion h
    rename_i h8
    split at h
    · exact Except.noConfusion h
    rename_i plen hplen
    split at h
    · exact Except.noConfusion h
    rename_i hbound
    split at h
    · exact Except.noConfusion h
    rename_i pdata hpdata
    split at h
    · exact Except.noConfusion h
    rename_i ninp hninp
    split at h
    · exact Except.noConfusion h
    rename_i pi poff hri
    have hnp := (Except.ok.inj h).symm
    obtain ⟨hutf, hoff, hle⟩ := readInputs_ok_facts buf ninp (8 + plen) pi poff hri
    have hpl : pdata.length = plen := by
      rw [sliceE_ok buf 4 (4 + plen) (by omega) (by omega)] at hpdata
      have h2 := Except.ok.inj hpdata
      rw [← h2, List.length_take, List.length_drop]
      omega
    subst hnp
    dsimp only
    constructor
    · exact hutf
    · have hfin := hle (by omega)
      omega
  · intro st poll pd e he
    unfold verify_zk_proof
    rw [he]


/-- Reading past a prefix addresses the suffix. -/
theorem get?_append_at (pre l2 : Bytes) (i j : Nat) (hj : j = pre.length + i) :
    (pre ++ l2).get? j = l2.get? i := by
  subst hj
  rw [List.get?_append_right (by omega)]
  congr 1
  omega

/-- Reading four bytes where a `u32le` was laid down recovers the value. -/
theorem u32leAt_parts (buf : Bytes) (off n : Nat) (pre rest : Bytes)
    (hbuf : buf = pre ++ (u32le n ++ rest)) (hoff : off = pre.length) (h : n < 2 ^ 32) :
    u32leAt buf off = .ok n := by
  subst hbuf
  have g0 := get?_append_at pre (u32le n ++ rest) 0 off (by omega)
  have g1 := get?_append_at pre (u32le n ++ rest) 1 (off + 1) (by omega)
  have g2 := get?_append_at pre (u32le n ++ rest) 2 (off + 2) (by omega)
  have g3 := get?_append_at pre (u32le n ++ rest) 3 (off + 3) (by omega)
  unfold u32leAt
  rw [g0, g1, g2, g3]
  simp only [u32le, List.cons_append, List.get?]
  congr 1
  omega

/-- Slicing exactly the middle segment of a concatenation returns it. -/
theorem sliceE_parts (buf : Bytes) (a b : Nat) (pre mid rest : Bytes)
    (hbuf : buf = pre ++ (mid ++ rest)) (ha : a = pre.length)
    (hb : b = pre.length + mid.length) :
    sliceE buf a b = .ok mid := by
  subst hbuf ha hb
  unfold sliceE
  rw [if_pos ⟨by omega, by rw [List.length_append, List.length_append]; omega⟩]
  rw [List.drop_left, Nat.add_sub_cancel_left, List.take_left]

/-- The input loop decodes a sequence of encoded inputs laid down after
an arbitrary prefix. -/
theorem readInputs_encode :
    ∀ (inputs : List Bytes) (buf : Bytes) (off : Nat) (pre : Bytes),
      buf = pre ++ (inputs.map encode_input).flatten → off = pre.length →
      (∀ s ∈ inputs, s.length < 2 ^ 32 ∧ validUtf8 s = true) →
      ∃ off2, readInputs buf inputs.length off = .ok (inputs, off2) := by
  intro inputs
  induction inputs with
  | nil =>
    intro buf off pre hbuf hoff hall
    exact ⟨off, rfl⟩
  | cons s rest ih =>
    intro buf off pre hbuf hoff hall
    obtain ⟨hs1, hs2⟩ := hall s (List.mem_cons_self s rest)
    have hrest : ∀ x ∈ rest, x.length < 2 ^ 32 ∧ validUtf8 x = true :=
      fun x hx => hall x (List.mem_cons_of_mem s hx)
    have hbuf2 : buf = pre ++ (u32le s.length ++ (s ++ (rest.map encode_input).flatten)) := by
      rw [hbuf]
      simp [encode_input, List.append_assoc]
    have hlen : buf.length =
        pre.length + (4 + (s.length + ((rest.map encode_input).flatten).length)) := by
      rw [hbuf2]
      simp [u32le, List.length_append]
      omega
    obtain ⟨off2, hoff2⟩ := ih buf (off + 4 + s.length) (pre ++ u32le s.length ++ s)
      (by rw [hbuf2]; simp [List.append_assoc])
      (by rw [List.length_append, List.length_append, hoff]; simp [u32le]) hrest
    refine ⟨off2, ?_⟩
    simp only [List.length_cons, readInputs]
    rw [if_neg (by omega)]
    simp only [u32leAt_parts buf off s.length pre (s ++ (rest.map encode_input).flatten)
      hbuf2 hoff hs1]
    rw [if_neg (by omega)]
    simp only [sliceE_parts buf (off + 4) (off + 4 + s.length) (pre ++ u32le s.length) s
      ((rest.map encode_input).flatten)
      (by rw [hbuf2]; simp [List.append_assoc])
      (by rw [List.length_append, hoff]; simp [u32le])
      (by rw [List.length_append, hoff]; simp [u32le])]
    rw [if_pos hs2]
    simp only [hoff2]


/-- Claim C5: encoding any proof bytes and UTF-8 input strings whose
lengths and count fit in `u32` under the codec's little-endian
length-prefixed layout and then decoding recovers exactly the original
proof bytes and ordered input sequence. -/
theorem serialize_deserialize_roundtrip :
    ∀ (proof : Bytes) (inputs : List Bytes),
      proof.length < 2 ^ 32 → inputs.length < 2 ^ 32 →
      (∀ s ∈ inputs, s.length < 2 ^ 32 ∧ validUtf8 s = true) →
      deserialize_proof (encode_proof_spec proof inputs) = .ok ⟨proof, inputs⟩ := by
  intro proof inputs hp hi hall
  have hbuf : encode_proof_spec proof inputs =
      u32le proof.length ++
        (proof ++ (u32le inputs.length ++ (inputs.map encode_input).flatten)) := by
    simp [encode_proof_spec, List.append_assoc]
  have hlen : (encode_proof_spec proof inputs).length =
      8 + (proof.length + ((inputs.map encode_input).flatten).length) := by
    rw [hbuf]
    simp [u32le, List.length_append]
    omega
  simp only [deserialize_proof]
  rw [if_neg (by omega)]
  simp only [u32leAt_parts (encode_proof_spec proof inputs) 0 proof.length []
    (proof ++ (u32le inputs.length ++ (inputs.map encode_input).flatten))
    (by rw [hbuf]; rfl) rfl hp]
  rw [if_neg (by omega)]
  simp only [sliceE_parts (encode_proof_spec proof inputs) 4 (4 + proof.length)
    (u32le proof.length) proof (u32le inputs.length ++ (inputs.map encode_input).flatten)
    (by rw [hbuf]) (by simp [u32le]) (by simp [u32le])]
  simp only [u32leAt_parts (encode_proof_spec proof inputs) (4 + proof.length) inputs.length
    (u32le proof.length ++ proof) ((inputs.map encode_input).flatten)
    (by rw [hbuf]; simp [List.append_assoc]) (by simp [u32le, List.length_append]; omega) hi]
  obtain ⟨off2, hoff2⟩ := readInputs_encode inputs (encode_proof_spec proof inputs)
    (8 + proof.length) (u32le proof.length ++ proof ++ u32le inputs.length)
    (by rw [hbuf]; simp [List.append_assoc])
    (by simp [u32le, List.length_append]; omega) hall
  simp only [hoff2]

/-- Witness for C5 at a concrete proof and input list. -/
theorem serialize_deserialize_roundtrip_witness :
    deserialize_proof (encode_proof_spec [7] [[48], [49]]) = .ok ⟨[7], [[48], [49]]⟩ :=
  serialize_deserialize_roundtrip [7] [[48], [49]] (by decide) (by decide) (by decide)


/-- A successful indexed read is unaffected by appended bytes. -/
theorem get?_append_of_some {buf extra : Bytes} {i v : Nat}
    (h : buf.get? i = some v) : (buf ++ extra).get? i = some v := by
  obtain ⟨hi, _⟩ := List.get?_eq_some.mp h
  rw [List.get?_append hi]
  exact h

/-- A successful four-byte read is unaffected by appended bytes. -/
theorem u32leAt_append {buf extra : Bytes} {off v : Nat}
    (h : u32leAt buf off = .ok v) : u32leAt (buf ++ extra) off = .ok v := by
  unfold u32leAt at h ⊢
  cases h0 : buf.get? off with
  | none => rw [h0] at h; exact Except.noConfusion h
  | some b0 =>
  cases h1 : buf.get? (off + 1) with
  | none => rw [h0, h1] at h; exact Except.noConfusion h
  | some b1 =>
  cases h2 : buf.get? (off + 2) with
  | none => rw [h0, h1, h2] at h; exact Except.noConfusion h
  | some b2 =>
  cases h3 : buf.get? (off + 3) with
  | none => rw [h0, h1, h2, h3] at h; exact Except.noConfusion h
  | some b3 =>
  rw [h0, h1, h2, h3] at h
  rw [get?_append_of_some h0, get?_append_of_some h1,
    get?_append_of_some h2, get?_append_of_some h3]
  exact h

/-- A successful slice is unaffected by appended bytes. -/
theorem sliceE_append {buf extra : Bytes} {a b : Nat} {l : Bytes}
    (h : sliceE buf a b = .ok l) : sliceE (buf ++ extra) a b = .ok l := by
  unfold sliceE at h ⊢
  split at h
  · rename_i hab
    obtain ⟨hab1, hab2⟩ := hab
    rw [if_pos ⟨hab1, by rw [List.length_append]; omega⟩]
    rw [List.drop_append_eq_append_drop, List.take_append_eq_append_take]
    have hz1 : a - buf.length = 0 := by omega
    have hz2 : b - a - (buf.drop a).length = 0 := by
      rw [List.length_drop]
      omega
    rw [hz1, hz2, List.take_zero, List.append_nil]
    exact h
  · exact Except.noConfusion h

/-- A successful input loop is unaffected by appended bytes. -/
theorem readInputs_append (buf extra : Bytes) :
    ∀ (n off : Nat) (l : List Bytes) (off2 : Nat),
      readInputs buf n off = .ok (l, off2) →
      readInputs (buf ++ extra) n off = .ok (l, off2) := by
  intro n
  induction n with
  | zero =>
    intro off l off2 h
    exact h
  | succ n ih =>
    intro off l off2 h
    simp only [readInputs] at h ⊢
    split at h
    · exact Except.noConfusion h
    rename_i hb1
    rw [if_neg (by rw [List.length_append]; omega)]
    split at h
    · exact Except.noConfusion h
    rename_i ilen hlen
    simp only [u32leAt_append hlen]
    split at h
    · exact Except.noConfusion h
    rename_i hb2
    rw [if_neg (by rw [List.length_append]; omega)]
    split at h
    · exact Except.noConfusion h
    rename_i bytes hbytes
    simp only [sliceE_append hbytes]
    split at h
    · rename_i hutf
      rw [if_pos hutf]
      split at h
      · exact Except.noConfusion h
      rename_i rest roff hrest
      simp only [ih _ _ _ hrest]
      exact h
    · exact Except.noConfusion h

/-- Claim C10: the decoder ignores trailing bytes — if a buffer decodes
successfully, appending any extra bytes still decodes successfully with
the identical result; the buffer length is never required to equal the
declared content length. -/
theorem deserialize_ignores_trailing :
    ∀ (buf extra : Bytes) (np : NoirProof),
      deserialize_proof buf = .ok np → deserialize_proof (buf ++ extra) = .ok np := by
  intro buf extra np h
  simp only [deserialize_proof] at h ⊢
  split at h
  · exact Except.noConfusion h
  rename_i h8
  rw [if_neg (by rw [List.length_append]; omega)]
  split at h
  · exact Except.noConfusion h
  rename_i plen hplen
  simp only [u32leAt_append hplen]
  split at h
  · exact Except.noConfusion h
  rename_i hbound
  rw [if_neg (by rw [List.length_append]; omega)]
  split at h
  · exact Except.noConfusion h
  rename_i pdata hpdata
  simp only [sliceE_append hpdata]
  split at h
  · exact Except.noConfusion h
  rename_i ninp hninp
  simp only [u32leAt_append hninp]
  split at h
  · exact Except.noConfusion h
  rename_i pi poff hri
  simp only [readInputs_append buf extra ninp (8 + plen) pi poff hri]
  exact h

/-- Witness for C10: the concrete valid buffer with three junk bytes
appended decodes to the same proof. -/
theorem deserialize_ignores_trailing_witness :
    deserialize_proof (proofBufW ++ [255, 255, 255]) = .ok npW :=
  deserialize_ignores_trailing proofBufW [255, 255, 255] npW rfl

/-- Witness for C2: the empty buffer fails with a typed decode error, and
the decoded inputs of the concrete valid buffer are all valid UTF-8. -/
theorem deserialize_proof_safety_witness :
    deserialize_proof [] = .error DesErr.malformed ∧
    (∀ s ∈ npW.public_inputs, validUtf8 s = true) :=
  ⟨deserialize_proof_safety.2.1 [] (by decide),
   (deserialize_proof_safety.2.2.1 proofBufW npW rfl).1⟩

/-- The source's shifted-or accumulation over the first 16 bytes equals
the little-endian base-256 value of those bytes. -/
theorem leBytesToNat_take :
    ∀ (n : Nat) (l : Bytes),
      leBytesToNat (l.take n) = ∑ i ∈ Finset.range n, l.getD i 0 * 256 ^ i := by
  intro n
  induction n with
  | zero => intro l; simp [leBytesToNat]
  | succ n ih =>
    intro l
    cases l with
    | nil =>
      simp only [List.take_nil, leBytesToNat]
      rw [Finset.sum_eq_zero]
      intro i _
      simp [List.getD]
    | cons b t =>
      rw [List.take_succ_cons]
      rw [leBytesToNat]
      rw [ih t]
      rw [Finset.sum_range_succ']
      simp only [List.getD_cons_succ, List.getD_cons_zero]
      rw [Finset.mul_sum]
      rw [pow_zero, mul_one]
      rw [Nat.add_comm]
      congr 1
      apply Finset.sum_congr rfl
      intro i _
      ring

/-- The digit expansion is a base-10 expansion: folding the digits back
recovers the value, and every digit is below 10. -/
theorem decAux_val :
    ∀ (fuel n : Nat), n < 10 ^ fuel →
      (decAux fuel n).foldr (fun d acc => d + 10 * acc) 0 = n ∧
      ∀ d ∈ decAux fuel n, d < 10 := by
  intro fuel
  induction fuel with
  | zero =>
    intro n hn
    interval_cases n
    simp [decAux]
  | succ fuel ih =>
    intro n hn
    by_cases h10 : n < 10
    · rw [decAux, if_pos h10]
      constructor
      · simp
      · intro d hd
        simp at hd
        omega
    · rw [decAux, if_neg h10]
      have hdiv : n / 10 < 10 ^ fuel := by
        rw [Nat.div_lt_iff_lt_mul (by omega)]
        calc n < 10 ^ (fuel + 1) := hn
        _ = 10 ^ fuel * 10 := by ring
      obtain ⟨hv, hd⟩ := ih (n / 10) hdiv
      constructor
      · simp only [List.foldr]
        rw [hv]
        omega
      · intro d hd2
        cases hd2 with
        | head => omega
        | tail _ h2 => exact hd d h2

/-- Folding a most-significant-first ASCII digit rendering with base-10
accumulation equals folding the little-endian digits. -/
theorem foldl_digits :
    ∀ (l : List Nat) (a : Nat),
      ((l.reverse).map (fun d => d + 48)).foldl (fun acc d => 10 * acc + (d - 48)) a =
        l.foldr (fun d acc => d + 10 * acc) a := by
  intro l
  induction l with
  | nil => intro a; rfl
  | cons x xs ih =>
    intro a
    simp only [List.reverse_cons, List.map_append, List.foldl_append, List.map_cons,
      List.map_nil, List.foldl_cons, List.foldl_nil, List.foldr]
    rw [ih a]
    omega

/-- `natToDecimal` is a faithful base-10 rendering: reparsing its ASCII
digits recovers the value. -/
theorem natToDecimal_foldl (n : Nat) :
    (natToDecimal n).foldl (fun acc d => 10 * acc + (d - 48)) 0 = n := by
  unfold natToDecimal
  have hbound : n < 10 ^ (n + 1) := by
    calc n < 10 ^ n := Nat.lt_pow_self (by norm_num) n
    _ ≤ 10 ^ (n + 1) := Nat.pow_le_pow_right (by norm_num) (Nat.le_succ n)
  obtain ⟨hv, _⟩ := decAux_val (n + 1) n hbound
  rw [foldl_digits]
  exact hv


/-- Claim C6: `construct_public_inputs` returns exactly four strings in
the fixed order — the base-10 rendering of the little-endian integer over
the first 16 bytes of the merkle root, the same encoding of the
nullifier, the poll id, and the option count (below 2^32) — and bytes 16
and beyond of the root and the nullifier never affect the output; the
rendering is genuine base-10 (reparsing recovers the value). -/
theorem construct_public_inputs_spec :
    ∀ (poll : Poll) (pd : ProofData), poll.options.length < 2 ^ 32 →
      construct_public_inputs poll pd =
        [natToDecimal (∑ i ∈ Finset.range 16, poll.merkle_root.getD i 0 * 256 ^ i),
         natToDecimal (∑ i ∈ Finset.range 16, pd.nullifier.getD i 0 * 256 ^ i),
         natToDecimal poll.id,
         natToDecimal poll.options.length] ∧
      (construct_public_inputs poll pd).length = 4 ∧
      (∀ root2 nul2 : Bytes, root2.take 16 = poll.merkle_root.take 16 →
        nul2.take 16 = pd.nullifier.take 16 →
        construct_public_inputs { poll with merkle_root := root2 }
          { pd with nullifier := nul2 } = construct_public_inputs poll pd) ∧
      (∀ n : Nat, (natToDecimal n).foldl (fun acc d => 10 * acc + (d - 48)) 0 = n) := by
  intro poll pd hlen
  refine ⟨?_, rfl, ?_, natToDecimal_foldl⟩
  · unfold construct_public_inputs bytes_to_field_string
    rw [leBytesToNat_take 16 poll.merkle_root, leBytesToNat_take 16 pd.nullifier]
    rw [Nat.mod_eq_of_lt hlen]
  · intro root2 nul2 hr hn
    unfold construct_public_inputs bytes_to_field_string
    dsimp only
    rw [hr, hn]

/-- Witness for C6 at the concrete witness poll and payload. -/
theorem construct_public_inputs_spec_witness :
    construct_public_inputs pollW pdZ =
      [natToDecimal (∑ i ∈ Finset.range 16, pollW.merkle_root.getD i 0 * 256 ^ i),
       natToDecimal (∑ i ∈ Finset.range 16, pdZ.nullifier.getD i 0 * 256 ^ i),
       natToDecimal pollW.id, natToDecimal pollW.options.length] :=
  (construct_public_inputs_spec pollW pdZ (by decide)).1

/-- Inversion of a successful `create_poll`. -/
theorem create_poll_ok_inversion {st : ZKPoll} {env : Env} {t d : Bytes}
    {opts : List Bytes} {mr : Bytes} {dur pid2 : Nat} {st2 : ZKPoll}
    (h : create_poll st env t d opts mr dur = .ok (pid2, st2)) :
    ∃ eb, pid2 = st.next_poll_id ∧ st.next_poll_id + 1 < 2 ^ 32 ∧
      st2 = { st with
        next_poll_id := st.next_poll_id + 1,
        polls := st.polls.insert st.next_poll_id
          { id := st.next_poll_id, title := t, description := d, options := opts,
            merkle_root := mr, creator := env.caller, is_active := true,
            total_votes := 0, end_block := eb } } := by
  unfold create_poll at h
  split at h
  · exact Except.noConfusion h
  rename_i eb heb
  split at h
  · exact Except.noConfusion h
  rename_i nid hnid
  obtain ⟨hn1, hn2⟩ := checked_add_u32_some.mp hnid
  have hpair := Except.ok.inj h
  injection hpair with h1 h2
  refine ⟨eb, h1.symm, by omega, ?_⟩
  rw [← h2, hn2]

/-- Inversion of a successful `end_poll`. -/
theorem end_poll_ok_inversion {st : ZKPoll} {env : Env} {pid : Nat} {st2 : ZKPoll}
    (h : end_poll st env pid = .ok st2) :
    ∃ poll, st.polls.get pid = some poll ∧
      st2 = { st with
        polls := st.polls.insert pid { poll with is_active := false } } := by
  unfold end_poll at h
  split at h
  · exact Except.noConfusion h
  rename_i poll hp
  split at h
  · exact Except.noConfusion h
  exact ⟨poll, hp, (Except.ok.inj h).symm⟩

/-- A successful `get_results` loop sums to the per-option counter sum. -/
theorem collectResults_sum (st : ZKPoll) (pid : Nat) :
    ∀ (n : Nat) (rs : List Nat), collectResults st pid n = some rs →
      rs.sum = sumCounts st pid n := by
  intro n
  induction n with
  | zero =>
    intro rs h
    simp only [collectResults] at h
    have h2 := (Option.some.inj h).symm
    subst h2
    simp [sumCounts]
  | succ n ih =>
    intro rs h
    simp only [collectResults] at h
    split at h
    · exact Option.noConfusion h
    rename_i rest hrest
    split at h
    · exact Option.noConfusion h
    rename_i i hi
    have hin : i = n := by
      unfold u32_try_from at hi
      split at hi
      · exact (Option.some.inj hi).symm
      · exact Option.noConfusion hi
    subst hin
    have hrs := (Option.some.inj h).symm
    subst hrs
    rw [List.sum_append, ih rest hrest]
    simp [sumCounts, Finset.sum_range_succ]

/-- The invariant holds in the initial state. -/
theorem inv_new : Inv ZKPoll.new :=
  ⟨fun _ _ => rfl, fun _ _ _ => rfl, fun _ _ hp => Option.noConfusion hp⟩

/-- The invariant holds in the keyed initial state. -/
theorem inv_new_vk (vk : Bytes) : Inv (ZKPoll.new_with_vk vk) :=
  ⟨fun _ _ => rfl, fun _ _ _ => rfl, fun _ _ hp => Option.noConfusion hp⟩


/-- `create_poll` preserves the invariant: the new poll starts with zero
total votes and untouched (all-zero) counters. -/
theorem inv_create {st : ZKPoll} {env : Env} {t d : Bytes} {opts : List Bytes}
    {mr : Bytes} {dur pid2 : Nat} {st2 : ZKPoll}
    (h : create_poll st env t d opts mr dur = .ok (pid2, st2)) (hinv : Inv st) :
    Inv st2 := by
  obtain ⟨i1, i2, i3⟩ := hinv
  obtain ⟨eb, hpid, hlt, hst⟩ := create_poll_ok_inversion h
  subst hst
  refine ⟨?_, ?_, ?_⟩
  · intro q hq
    simp only [Mapping.get, Mapping.insert] at hq ⊢
    rw [if_neg (by omega)]
    exact i1 q (by omega)
  · intro q i hq
    simp only [Mapping.get] at hq ⊢
    exact i2 q i (by omega)
  · intro q poll2 hq
    simp only [Mapping.get, Mapping.insert] at hq
    by_cases hqn : q = st.next_poll_id
    · rw [if_pos hqn] at hq
      have hp2 := (Option.some.inj hq).symm
      subst hp2
      dsimp only [sumCounts]
      rw [Finset.sum_eq_zero]
      intro i _
      have hz := i2 q i (by omega)
      simp only [getCount, Mapping.get]
      simp only [Mapping.get] at hz
      rw [hz]
      rfl
    · rw [if_neg hqn] at hq
      exact i3 q poll2 hq

/-- `vote` preserves the invariant: the chosen counter and the poll's
total rise together by one. -/
theorem inv_vote {st : ZKPoll} {env : Env} {pid : Nat} {pd : ProofData} {st2 : ZKPoll}
    (h : vote st env pid pd = .ok st2) (hinv : Inv st) : Inv st2 := by
  obtain ⟨i1, i2, i3⟩ := hinv
  obtain ⟨poll, hp, _, _, _, hchoice, _, _, hcnt, htv, hst⟩ := vote_ok_inversion h
  have hpidlt : pid < st.next_poll_id := by
    by_contra hc
    push_neg at hc
    rw [i1 pid hc] at hp
    exact Option.noConfusion hp
  subst hst
  have hpoint : ∀ i, getCount
      { st with
        polls := st.polls.insert pid { poll with total_votes := poll.total_votes + 1 },
        used_nullifiers := st.used_nullifiers.insert (pid, pd.nullifier) true,
        poll_results := st.poll_results.insert (pid, pd.vote_choice)
          (getCount st pid pd.vote_choice + 1) } pid i =
      getCount st pid i + (if i = pd.vote_choice then 1 else 0) := by
    intro i
    simp only [getCount, Mapping.get, Mapping.insert]
    by_cases hi : i = pd.vote_choice
    · subst hi
      rw [if_pos rfl, if_pos rfl]
      rfl
    · rw [if_neg (by intro heq; rw [Prod.mk.injEq] at heq; exact hi heq.2), if_neg hi]
      rfl
  refine ⟨?_, ?_, ?_⟩
  · intro q hq
    dsimp only at hq
    simp only [Mapping.get, Mapping.insert]
    rw [if_neg (by omega)]
    exact i1 q hq
  · intro q i hq
    dsimp only at hq
    simp only [Mapping.get, Mapping.insert]
    rw [if_neg (by intro heq; rw [Prod.mk.injEq] at heq; omega)]
    exact i2 q i hq
  · intro q poll2 hq
    simp only [Mapping.get, Mapping.insert] at hq
    by_cases hqp : q = pid
    · subst hqp
      rw [if_pos rfl] at hq
      have hp2 := (Option.some.inj hq).symm
      subst hp2
      dsimp only [sumCounts]
      rw [Finset.sum_congr rfl fun i _ => hpoint i]
      rw [Finset.sum_add_distrib]
      rw [Finset.sum_ite_eq' (Finset.range poll.options.length) pd.vote_choice fun _ => 1]
      rw [if_pos (Finset.mem_range.mpr hchoice)]
      have htot := i3 q poll hp
      dsimp only [sumCounts] at htot
      omega
    · rw [if_neg hqp] at hq
      have htot := i3 q poll2 hq
      rw [htot]
      dsimp only [sumCounts]
      apply Finset.sum_congr rfl
      intro i _
      simp only [getCount, Mapping.get, Mapping.insert]
      rw [if_neg (by intro heq; rw [Prod.mk.injEq] at heq; exact hqp heq.1)]

/-- `end_poll` preserves the invariant: only `is_active` changes. -/
theorem inv_end {st : ZKPoll} {env : Env} {pid : Nat} {st2 : ZKPoll}
    (h : end_poll st env pid = .ok st2) (hinv : Inv st) : Inv st2 := by
  obtain ⟨i1, i2, i3⟩ := hinv
  obtain ⟨poll, hp, hst⟩ := end_poll_ok_inversion h
  have hpidlt : pid < st.next_poll_id := by
    by_contra hc
    push_neg at hc
    rw [i1 pid hc] at hp
    exact Option.noConfusion hp
  subst hst
  refine ⟨?_, ?_, ?_⟩
  · intro q hq
    dsimp only at hq
    simp only [Mapping.get, Mapping.insert]
    rw [if_neg (by omega)]
    exact i1 q hq
  · intro q i hq
    dsimp only at hq
    exact i2 q i hq
  · intro q poll2 hq
    simp only [Mapping.get, Mapping.insert] at hq
    by_cases hqp : q = pid
    · subst hqp
      rw [if_pos rfl] at hq
      have hp2 := (Option.some.inj hq).symm
      subst hp2
      exact i3 q poll hp
    · rw [if_neg hqp] at hq
      exact i3 q poll2 hq

/-- `set_verification_key` preserves the invariant. -/
theorem inv_setvk {st : ZKPoll} {vk : Bytes} {st2 : ZKPoll}
    (h : set_verification_key st vk = .ok st2) (hinv : Inv st) : Inv st2 := by
  have hst := (Except.ok.inj h).symm
  subst hst
  exact hinv

/-- Every reachable state satisfies the invariant. Failed calls return an
error carrying no state, so they preserve every state property by
construction and need no transition rule. -/
theorem inv_reachable : ∀ st : ZKPoll, Reachable st → Inv st := by
  intro st hr
  induction hr with
  | init => exact inv_new
  | init_vk vk => exact inv_new_vk vk
  | create_ok _ hc ih => exact inv_create hc ih
  | vote_ok _ hv ih => exact inv_vote hv ih
  | end_ok _ he ih => exact inv_end he ih
  | setvk_ok _ hs ih => exact inv_setvk hs ih

/-- Claim C4: in every reachable contract state, for every existing poll,
`total_votes` equals the sum of the per-option counts returned by
`get_results`; the invariant holds after poll creation (both sides zero)
and is preserved by every successful or failed create_poll, vote,
end_poll and set_verification_key call. -/
theorem total_votes_invariant :
    ∀ st : ZKPoll, Reachable st →
      ∀ (pid : Nat) (poll : Poll) (rs : List Nat),
        st.polls.get pid = some poll → get_results st pid = some rs →
        rs.sum = poll.total_votes := by
  intro st hr pid poll rs hp hres
  have hinv := inv_reachable st hr
  simp only [get_results, hp] at hres
  rw [collectResults_sum st pid poll.options.length rs hres]
  exact (hinv.2.2 pid poll hp).symm

/-- Witness for C4: the freshly created two-option poll has results
[0, 0] summing to its zero total. -/
theorem total_votes_invariant_witness :
    List.sum [0, 0] = pollC4.total_votes := by
  have h1 : create_poll ZKPoll.new envW [116] [100] [[97], [98]]
      (List.replicate 32 0) 10 = .ok (1, stC4) := rfl
  have hr : Reachable stC4 := Reachable.create_ok Reachable.init h1
  exact total_votes_invariant stC4 hr 1 pollC4 [0, 0] rfl rfl

end ZkPoll
